import Mathlib

/-!
Shallow embedding of the pdf-tools repository (two Python files):

* `src/pdf_merger.py` — `PDFFileManager` (the document collection with
  duplicate tracking) and the merge / force-add paths of `PDFMergerGUI`;
* `src/pdf_splitter_and_merger.py` — `PDFSplitterGUI` range handling
  (`add_range`, `export_pdf`).

Python strings are Lean `String`s, Python ints are `Int` (page counts that
are known non-negative are `Nat`), the Python dict `_hash_counts` is an
association list with Python-dict semantics (unique keys in every state the
code constructs), and the PyMuPDF document handle is an opaque `Nat` id
together with its page count.  Fallible steps (PyPDF2 page access, fitz.open)
are `Option`; an uncaught exception inside a loop aborts the whole operation,
which `Option`-monadic folds model exactly.
-/

/-- `FileStatus` of `pdf_merger.py`: NORMAL or DUPLICATE. -/
inductive FileStatus where
  | NORMAL
  | DUPLICATE
deriving DecidableEq, Repr

/-- `PDFFile` of `pdf_merger.py`: path, the open fitz document (modelled as
an opaque handle id `docId` plus its page count `docLen`), the MD5 hash of
the file's bytes, and the duplicate status. -/
structure PDFFile where
  path : String
  docId : Nat
  docLen : Nat
  hash : String
  status : FileStatus := FileStatus.NORMAL
deriving DecidableEq, Repr

/-- `PDFFile.page_count`: `len(self.doc)`, the page count of the open document. -/
def page_count (f : PDFFile) : Nat := f.docLen

/-- `os.path.basename`: the part of the path after the last slash
(`PDFFile.filename` in the source). -/
def basename (p : String) : String :=
  String.mk (p.data.foldl (fun acc c => if c = '/' then [] else acc ++ [c]) [])

/-- `PDFFile.filename`: `os.path.basename(self.path)`. -/
def filename (f : PDFFile) : String := basename f.path

/-- Python `dict.get(k, dflt)` over an association list. -/
def dictGet : List (String × Nat) → String → Nat → Nat
  | [], _, dflt => dflt
  | p :: rest, k, dflt => if p.1 == k then p.2 else dictGet rest k dflt

/-- Python `k in dict`. -/
def dictMem : List (String × Nat) → String → Bool
  | [], _ => false
  | p :: rest, k => p.1 == k || dictMem rest k

/-- Python `dict[k] = v`: replace the (unique) binding of `k`, else append. -/
def dictSet : List (String × Nat) → String → Nat → List (String × Nat)
  | [], k, v => [(k, v)]
  | p :: rest, k, v => if p.1 == k then (k, v) :: rest else p :: dictSet rest k v

/-- Python `del dict[k]`: drop the (unique) binding of `k`. -/
def dictDel : List (String × Nat) → String → List (String × Nat)
  | [], _ => []
  | p :: rest, k => if p.1 == k then rest else p :: dictDel rest k

/-- The state of a `PDFFileManager`: `self.files` and `self._hash_counts`. -/
structure ManagerState where
  files : List PDFFile
  hash_counts : List (String × Nat)
deriving DecidableEq, Repr

/-- `PDFFileManager._file_exists`: `file_hash in self._hash_counts`. -/
def file_exists (st : ManagerState) (file_hash : String) : Bool :=
  dictMem st.hash_counts file_hash

/-- `PDFFileManager._update_duplicate_statuses`: mark each file DUPLICATE
when its hash count exceeds 1, else NORMAL.  (Python indexes the dict
directly and would raise `KeyError` on a missing hash; every state this
development evaluates the function on has all file hashes present, so the
default 0 is never read.) -/
def update_duplicate_statuses (st : ManagerState) : ManagerState :=
  { st with
    files := st.files.map (fun f =>
      if dictGet st.hash_counts f.hash 0 > 1 then { f with status := FileStatus.DUPLICATE }
      else { f with status := FileStatus.NORMAL }) }

/-- `PDFFileManager.add_file`.  `file_hash` is the MD5 fingerprint
`_calculate_hash` computed for `path` (file I/O, passed as an argument);
`openResult` is `some (id, pages)` when `fitz.open(path)` succeeds and
`none` when it raises (the `except` branch returns the exception's message,
not modelled beyond failure, and leaves the state untouched). -/
def add_file (st : ManagerState) (path : String) (file_hash : String)
    (openResult : Option (Nat × Nat)) : (Bool × String) × ManagerState :=
  if file_exists st file_hash then
    ((false, "File already exists: " ++ basename path), st)
  else
    match openResult with
    | none => ((false, ""), st)
    | some opened =>
      let f : PDFFile :=
        { path := path, docId := opened.1, docLen := opened.2, hash := file_hash }
      let files2 := st.files ++ [f]
      let counts2 := dictSet st.hash_counts file_hash (dictGet st.hash_counts file_hash 0 + 1)
      ((true, file_hash), update_duplicate_statuses { files := files2, hash_counts := counts2 })

/-- `PDFMergerGUI._force_add_file` (success path): open the document, hash
the file, append without any duplicate check, bump the count, recompute
statuses. -/
def force_add_file (st : ManagerState) (path : String) (file_hash : String)
    (docId docLen : Nat) : ManagerState :=
  let f : PDFFile := { path := path, docId := docId, docLen := docLen, hash := file_hash }
  update_duplicate_statuses
    { files := st.files ++ [f],
      hash_counts := dictSet st.hash_counts file_hash (dictGet st.hash_counts file_hash 0 + 1) }

/-- `PDFFileManager.remove_file`: `0 <= index < len(files)` pops the file,
decrements its hash count (deleting the key at zero) and recomputes
statuses; any other index returns False and changes nothing. -/
def remove_file (st : ManagerState) (index : Int) : Bool × ManagerState :=
  if 0 ≤ index ∧ index < (st.files.length : Int) then
    match st.files[index.toNat]? with
    | none => (false, st)
    | some f =>
      let files2 := st.files.eraseIdx index.toNat
      let c := dictGet st.hash_counts f.hash 0 - 1
      let counts2 :=
        if c = 0 then dictDel st.hash_counts f.hash else dictSet st.hash_counts f.hash c
      (true, update_duplicate_statuses { files := files2, hash_counts := counts2 })
  else (false, st)

/-- `PDFFileManager.reorder_files`: for each filename of `new_order` append
the first file whose basename matches (nothing when none matches); accept
the result exactly when it has as many entries as the current list.  The
hash index and the statuses are not touched. -/
def reorder_files (st : ManagerState) (new_order : List String) : Bool × ManagerState :=
  let new_files := new_order.filterMap (fun name => st.files.find? (fun f => filename f == name))
  if new_files.length = st.files.length then (true, { st with files := new_files })
  else (false, st)

/-- The scanning loop of `PDFFileManager.remove_duplicates`: `seen_hashes`,
`files_to_keep`, `removed_count`. -/
def dedupLoop : List PDFFile → List String → List PDFFile → Nat → List PDFFile × Nat
  | [], _, keep, removed => (keep, removed)
  | f :: rest, seen, keep, removed =>
    if f.hash ∈ seen then dedupLoop rest seen keep (removed + 1)
    else dedupLoop rest (f.hash :: seen) (keep ++ [f]) removed

/-- The rebuild loop at the end of `remove_duplicates`:
`self._hash_counts = {}` then one `get(h, 0) + 1` per kept file (this is
also exactly the increment `add_file` performs). -/
def buildCounts (files : List PDFFile) : List (String × Nat) :=
  files.foldl (fun d f => dictSet d f.hash (dictGet d f.hash 0 + 1)) []

/-- `PDFFileManager.remove_duplicates`: keep the first file of each hash, count
the rest as removed, rebuild the hash index from the kept files, recompute
statuses, return the number removed. -/
def remove_duplicates (st : ManagerState) : Nat × ManagerState :=
  let scanned := dedupLoop st.files [] [] 0
  (scanned.2, update_duplicate_statuses
    { files := scanned.1, hash_counts := buildCounts scanned.1 })

/-- `PDFSplitterGUI.add_range` on already-parsed integers: reject (error
dialog, no mutation) when `start < 1 or end > total_pages or start > end`,
else append `(start, end)` to `self.page_ranges`. -/
def add_range (ranges : List (Int × Int)) (start endP totalPages : Int) :
    Bool × List (Int × Int) :=
  if start < 1 ∨ endP > totalPages ∨ start > endP then (false, ranges)
  else (true, ranges ++ [(start, endP)])

/-- Python `range(a, b)` over `Int`. -/
def intRange (a b : Int) : List Int :=
  (List.range (b - a).toNat).map (fun (k : Nat) => a + (k : Int))

/-- PyPDF2 `pdf_reader.pages[i]`: one negative wrap, then a bounds check;
`some` of the resolved 0-based page index, `none` for the `IndexError`. -/
def reader_get_page (totalPages : Nat) (i : Int) : Option Int :=
  let j := if i < 0 then (totalPages : Int) + i else i
  if 0 ≤ j ∧ j < (totalPages : Int) then some j else none

/-- The page-collection loop of `PDFSplitterGUI.export_pdf`: for each range
in list order, for `page_num in range(start - 1, end)`, append the page
`pdf_reader.pages[page_num]`.  An `IndexError` aborts the whole export
(caught by the generic `except`, before the output file is ever opened), so
the fold is in the `Option` monad and `none` means nothing is written. -/
def export_pdf (totalPages : Nat) (ranges : List (Int × Int)) : Option (List Int) :=
  ranges.foldlM (fun acc r =>
      (intRange (r.1 - 1) r.2).foldlM (fun acc2 i =>
          (reader_get_page totalPages i).map (fun p => acc2 ++ [p])) acc)
    []

/-- The page-collection loop of `PDFMergerGUI._merge_pdfs`: for each file in
manager order, for each of its pages in the reader's natural order, append
one `(source path, page index)` entry.  (`PdfReader(pdf_file.path)` yields
the same number of pages the open fitz handle reports for the same file.) -/
def merge_pdfs_plan (files : List PDFFile) : List (String × Nat) :=
  files.foldl (fun acc f =>
      (List.range (page_count f)).foldl (fun acc2 i => acc2 ++ [(f.path, i)]) acc)
    []

/-- Specification-side restatement of the scan of `remove_duplicates` (used
to state C7): keep each file whose hash has not been seen before, first
occurrences first. -/
def keepFirstFrom (seen : List String) : List PDFFile → List PDFFile
  | [] => []
  | f :: rest =>
    if f.hash ∈ seen then keepFirstFrom seen rest
    else f :: keepFirstFrom (f.hash :: seen) rest

/-- The hash-index invariant of the spec: the hash→count index agrees with
the multiset of hashes of the current sequence — every file's hash is counted
right, and every index entry counts right and counts something present. -/
def countsConsistent (st : ManagerState) : Prop :=
  (∀ f ∈ st.files, dictGet st.hash_counts f.hash 0 = (st.files.map PDFFile.hash).count f.hash)
    ∧ ∀ p ∈ st.hash_counts, p.2 = (st.files.map PDFFile.hash).count p.1 ∧ p.2 ≠ 0

/-- The duplicate-status invariant of the spec, over the current sequence: a
file is DUPLICATE exactly when its hash occurs more than once in the
sequence, so a uniquely-hashed file is NORMAL. -/
def statusInvariant (st : ManagerState) : Prop :=
  ∀ f ∈ st.files,
    (f.status = FileStatus.DUPLICATE ↔ 1 < (st.files.map PDFFile.hash).count f.hash)

instance (st : ManagerState) : Decidable (countsConsistent st) := by
  unfold countsConsistent
  exact inferInstance

instance (st : ManagerState) : Decidable (statusInvariant st) := by
  unfold statusInvariant
  exact inferInstance

/-- The identity of a file apart from its recomputable duplicate status:
path, document handle, page count and hash (used to state the frame part of
C10). -/
def dropStatus (f : PDFFile) : String × Nat × Nat × String :=
  (f.path, f.docId, f.docLen, f.hash)

def pathA : String := "docs/a.pdf"

def pathB : String := "docs/b.pdf"

def hashA : String := "ha"

def hashB : String := "hb"

/-- A loaded 3-page document. -/
def fileA : PDFFile := { path := pathA, docId := 1, docLen := 3, hash := hashA }

/-- A loaded 2-page document with a different content hash. -/
def fileB : PDFFile := { path := pathB, docId := 2, docLen := 2, hash := hashB }

/-- A consistent two-document collection. -/
def stAB : ManagerState :=
  { files := [fileA, fileB], hash_counts := [(hashA, 1), (hashB, 1)] }

/-- The empty collection a fresh `PDFFileManager` starts with. -/
def st0 : ManagerState := { files := [], hash_counts := [] }

/-- The collection after one successful `add_file`. -/
def st1 : ManagerState := (add_file st0 pathA hashA (some (1, 3))).2

/-- The collection after force-adding the same file twice (two documents with
equal hash). -/
def stDup : ManagerState :=
  force_add_file (force_add_file st0 pathA hashA 1 3) pathA hashA 2 3

theorem dictGet_dictSet_self (d : List (String × Nat)) (k : String) (v dflt : Nat) :
    dictGet (dictSet d k v) k dflt = v := by
  induction d with
  | nil => simp [dictSet, dictGet]
  | cons p rest ih =>
    by_cases h : p.1 = k
    · simp [dictSet, dictGet, h]
    · simp [dictSet, dictGet, h, ih]

theorem dictGet_dictSet_ne (d : List (String × Nat)) (k k2 : String) (v dflt : Nat)
    (h : k ≠ k2) : dictGet (dictSet d k v) k2 dflt = dictGet d k2 dflt := by
  induction d with
  | nil => simp [dictSet, dictGet, h]
  | cons p rest ih =>
    by_cases hp : p.1 = k
    · simp [dictSet, dictGet, hp, h]
    · by_cases hp2 : p.1 = k2
      · simp [dictSet, dictGet, hp, hp2, Ne.symm h]
      · simp [dictSet, dictGet, hp, hp2, ih]

theorem dictMem_of_dictGet_ne_zero (d : List (String × Nat)) (k : String)
    (h : dictGet d k 0 ≠ 0) : dictMem d k = true := by
  induction d with
  | nil => simp [dictGet] at h
  | cons p rest ih =>
    by_cases hp : p.1 = k
    · simp [dictMem, hp]
    · simp [dictGet, hp] at h
      simp [dictMem, hp, ih h]

theorem buildCounts_loop (files : List PDFFile) (d : List (String × Nat)) (h : String) :
    dictGet (files.foldl (fun d f => dictSet d f.hash (dictGet d f.hash 0 + 1)) d) h 0
      = dictGet d h 0 + (files.map PDFFile.hash).count h := by
  induction files generalizing d with
  | nil => simp
  | cons f rest ih =>
    simp only [List.foldl_cons, List.map_cons]
    rw [ih]
    by_cases hf : f.hash = h
    · subst hf
      rw [dictGet_dictSet_self]
      simp [List.count_cons]
      omega
    · rw [dictGet_dictSet_ne _ _ _ _ _ hf]
      simp [List.count_cons, hf]

theorem dictGet_buildCounts (files : List PDFFile) (h : String) :
    dictGet (buildCounts files) h 0 = (files.map PDFFile.hash).count h := by
  have hb := buildCounts_loop files [] h
  simpa [buildCounts, dictGet] using hb

theorem buildCounts_loop_map (g : PDFFile → PDFFile) (hg : ∀ f, (g f).hash = f.hash)
    (files : List PDFFile) (d : List (String × Nat)) :
    (files.map g).foldl (fun d f => dictSet d f.hash (dictGet d f.hash 0 + 1)) d
      = files.foldl (fun d f => dictSet d f.hash (dictGet d f.hash 0 + 1)) d := by
  induction files generalizing d with
  | nil => simp
  | cons f rest ih => simp [hg, ih]

theorem buildCounts_map_same_hash (g : PDFFile → PDFFile) (hg : ∀ f, (g f).hash = f.hash)
    (files : List PDFFile) : buildCounts (files.map g) = buildCounts files := by
  simpa [buildCounts] using buildCounts_loop_map g hg files []

theorem dedupLoop_fst (l : List PDFFile) (seen : List String) (keep : List PDFFile)
    (removed : Nat) : (dedupLoop l seen keep removed).1 = keep ++ keepFirstFrom seen l := by
  induction l generalizing seen keep removed with
  | nil => simp [dedupLoop, keepFirstFrom]
  | cons f rest ih =>
    by_cases h : f.hash ∈ seen
    · simp [dedupLoop, keepFirstFrom, h, ih]
    · simp [dedupLoop, keepFirstFrom, h, ih]

theorem dedupLoop_snd (l : List PDFFile) (seen : List String) (keep : List PDFFile)
    (removed : Nat) :
    (dedupLoop l seen keep removed).2 + (keepFirstFrom seen l).length
      = removed + l.length := by
  induction l generalizing seen keep removed with
  | nil => simp [dedupLoop, keepFirstFrom]
  | cons f rest ih =>
    by_cases h : f.hash ∈ seen
    · have h2 := ih seen keep (removed + 1)
      simp only [dedupLoop, keepFirstFrom, if_pos h, List.length_cons]
      omega
    · have h2 := ih (f.hash :: seen) (keep ++ [f]) removed
      simp only [dedupLoop, keepFirstFrom, if_neg h, List.length_cons]
      omega

theorem keepFirstFrom_sublist (seen : List String) (l : List PDFFile) :
    (keepFirstFrom seen l).Sublist l := by
  induction l generalizing seen with
  | nil => simp [keepFirstFrom]
  | cons f rest ih =>
    by_cases h : f.hash ∈ seen
    · simpa only [keepFirstFrom, if_pos h] using (ih seen).cons f
    · simpa only [keepFirstFrom, if_neg h] using (ih (f.hash :: seen)).cons₂ f

theorem keepFirstFrom_find (seen : List String) (l : List PDFFile) (g : PDFFile)
    (hg : g ∈ keepFirstFrom seen l) :
    g.hash ∉ seen ∧ l.find? (fun f => f.hash == g.hash) = some g := by
  induction l generalizing seen with
  | nil => simp [keepFirstFrom] at hg
  | cons f rest ih =>
    by_cases h : f.hash ∈ seen
    · simp only [keepFirstFrom, if_pos h] at hg
      obtain ⟨hns, hfind⟩ := ih seen hg
      have hne : f.hash ≠ g.hash := fun he => hns (he ▸ h)
      exact ⟨hns, by simp [List.find?_cons, hne, hfind]⟩
    · simp only [keepFirstFrom, if_neg h] at hg
      rcases List.mem_cons.mp hg with rfl | hg2
      · exact ⟨h, by simp [List.find?_cons]⟩
      · obtain ⟨hns, hfind⟩ := ih (f.hash :: seen) hg2
        have hne : f.hash ≠ g.hash := fun he => hns (by simp [he])
        have hns2 : g.hash ∉ seen := fun hs => hns (List.mem_cons_of_mem _ hs)
        exact ⟨hns2, by simp [List.find?_cons, hne, hfind]⟩

theorem keepFirstFrom_hash_nodup (seen : List String) (l : List PDFFile) :
    ((keepFirstFrom seen l).map PDFFile.hash).Nodup := by
  induction l generalizing seen with
  | nil => simp [keepFirstFrom]
  | cons f rest ih =>
    by_cases h : f.hash ∈ seen
    · simpa only [keepFirstFrom, if_pos h] using ih seen
    · simp only [keepFirstFrom, if_neg h, List.map_cons, List.nodup_cons]
      refine ⟨?_, ih (f.hash :: seen)⟩
      intro hmem
      obtain ⟨g, hg, hgh⟩ := List.mem_map.mp hmem
      exact (keepFirstFrom_find _ _ _ hg).1 (by simp [hgh])

theorem keepFirstFrom_covers (seen : List String) (l : List PDFFile) (f : PDFFile)
    (hf : f ∈ l) (hns : f.hash ∉ seen) :
    f.hash ∈ (keepFirstFrom seen l).map PDFFile.hash := by
  induction l generalizing seen with
  | nil => simp at hf
  | cons a rest ih =>
    by_cases h : a.hash ∈ seen
    · simp only [keepFirstFrom, if_pos h]
      rcases List.mem_cons.mp hf with rfl | hf2
      · exact absurd h hns
      · exact ih seen hf2 hns
    · simp only [keepFirstFrom, if_neg h, List.map_cons]
      rcases List.mem_cons.mp hf with rfl | hf2
      · exact List.mem_cons_self _ _
      · by_cases he : f.hash = a.hash
        · rw [he]; exact List.mem_cons_self _ _
        · refine List.mem_cons_of_mem _ (ih (a.hash :: seen) hf2 ?_)
          intro hc
          rcases List.mem_cons.mp hc with h1 | h1
          · exact he h1
          · exact hns h1

theorem keepFirstFrom_eq_self (seen : List String) (l : List PDFFile)
    (hnd : (l.map PDFFile.hash).Nodup) (hdisj : ∀ f ∈ l, f.hash ∉ seen) :
    keepFirstFrom seen l = l := by
  induction l generalizing seen with
  | nil => simp [keepFirstFrom]
  | cons f rest ih =>
    have h : f.hash ∉ seen := hdisj f (List.mem_cons_self f rest)
    simp only [keepFirstFrom, if_neg h]
    congr 1
    have hnd2 : (rest.map PDFFile.hash).Nodup := (List.nodup_cons.mp (by simpa using hnd)).2
    have hhd : f.hash ∉ rest.map PDFFile.hash := (List.nodup_cons.mp (by simpa using hnd)).1
    refine ih (f.hash :: seen) hnd2 (fun g hg hc => ?_)
    rcases List.mem_cons.mp hc with h1 | h1
    · exact hhd (h1 ▸ List.mem_map_of_mem PDFFile.hash hg)
    · exact hdisj g (List.mem_cons_of_mem f hg) h1

theorem managerState_eq (a b : ManagerState) (h1 : a.files = b.files)
    (h2 : a.hash_counts = b.hash_counts) : a = b := by
  cases a; cases b; simp_all

theorem remove_duplicates_files (st : ManagerState) :
    (remove_duplicates st).2.files
      = (keepFirstFrom [] st.files).map (fun f => { f with status := FileStatus.NORMAL }) := by
  have hk : (dedupLoop st.files [] [] 0).1 = keepFirstFrom [] st.files := by
    simpa using dedupLoop_fst st.files [] [] 0
  simp only [remove_duplicates, hk, update_duplicate_statuses]
  apply List.map_congr_left
  intro f hf
  have h1 : dictGet (buildCounts (keepFirstFrom [] st.files)) f.hash 0 = 1 := by
    rw [dictGet_buildCounts]
    exact List.count_eq_one_of_mem (keepFirstFrom_hash_nodup [] st.files)
      (List.mem_map_of_mem PDFFile.hash hf)
  simp [h1]

theorem remove_duplicates_counts (st : ManagerState) :
    (remove_duplicates st).2.hash_counts = buildCounts (keepFirstFrom [] st.files) := by
  have hk : (dedupLoop st.files [] [] 0).1 = keepFirstFrom [] st.files := by
    simpa using dedupLoop_fst st.files [] [] 0
  simp [remove_duplicates, update_duplicate_statuses, hk]

theorem remove_duplicates_removed (st : ManagerState) :
    (remove_duplicates st).1 + (keepFirstFrom [] st.files).length = st.files.length := by
  have h := dedupLoop_snd st.files [] [] 0
  simpa [remove_duplicates] using h

/-- C7: `remove_duplicates` scans the sequence in current order, keeps the
first file of each hash (each kept file is the `find?`-first file of its
hash, the kept files form a subsequence of the original, their hashes are
exhaustive), returns the number removed (kept + removed = original length),
and afterwards every remaining hash counts 1 in the rebuilt index and every
remaining file has status NORMAL. -/
theorem remove_duplicates_correct (st : ManagerState) :
    (remove_duplicates st).1 + (keepFirstFrom [] st.files).length = st.files.length
    ∧ (remove_duplicates st).2.files
        = (keepFirstFrom [] st.files).map (fun f => { f with status := FileStatus.NORMAL })
    ∧ (keepFirstFrom [] st.files).Sublist st.files
    ∧ (∀ g ∈ keepFirstFrom [] st.files, st.files.find? (fun f => f.hash == g.hash) = some g)
    ∧ (∀ f ∈ st.files, f.hash ∈ (keepFirstFrom [] st.files).map PDFFile.hash)
    ∧ ∀ f ∈ (remove_duplicates st).2.files,
        dictGet (remove_duplicates st).2.hash_counts f.hash 0 = 1
          ∧ f.status = FileStatus.NORMAL := by
  refine ⟨remove_duplicates_removed st, remove_duplicates_files st,
    keepFirstFrom_sublist [] st.files,
    fun g hg => (keepFirstFrom_find [] st.files g hg).2,
    fun f hf => keepFirstFrom_covers [] st.files f hf (by simp),
    fun f hf => ?_⟩
  rw [remove_duplicates_files st] at hf
  obtain ⟨g, hg, rfl⟩ := List.mem_map.mp hf
  refine ⟨?_, rfl⟩
  show dictGet (remove_duplicates st).2.hash_counts g.hash 0 = 1
  rw [remove_duplicates_counts st, dictGet_buildCounts]
  exact List.count_eq_one_of_mem (keepFirstFrom_hash_nodup [] st.files)
    (List.mem_map_of_mem PDFFile.hash hg)

/-- C8: `remove_duplicates` is idempotent — on the state a first call
produced, a second call returns 0 and returns that state unchanged (same
sequence, same hash index, same statuses). -/
theorem remove_duplicates_idempotent (st : ManagerState) :
    remove_duplicates (remove_duplicates st).2 = (0, (remove_duplicates st).2) := by
  set st2 := (remove_duplicates st).2 with hst2
  have hfiles : st2.files
      = (keepFirstFrom [] st.files).map (fun f => { f with status := FileStatus.NORMAL }) :=
    remove_duplicates_files st
  have hcounts : st2.hash_counts = buildCounts (keepFirstFrom [] st.files) :=
    remove_duplicates_counts st
  have hhashes : st2.files.map PDFFile.hash = (keepFirstFrom [] st.files).map PDFFile.hash := by
    rw [hfiles, List.map_map]; rfl
  have hnd : (st2.files.map PDFFile.hash).Nodup := by
    rw [hhashes]; exact keepFirstFrom_hash_nodup [] st.files
  have hself : keepFirstFrom [] st2.files = st2.files :=
    keepFirstFrom_eq_self [] st2.files hnd (by simp)
  have h1 : (remove_duplicates st2).1 = 0 := by
    have h := remove_duplicates_removed st2
    rw [hself] at h
    omega
  have h2 : (remove_duplicates st2).2.hash_counts = st2.hash_counts := by
    rw [remove_duplicates_counts st2, hself, hfiles,
      buildCounts_map_same_hash (fun f => { f with status := FileStatus.NORMAL })
        (fun f => rfl)]
    exact hcounts.symm
  have h3 : (remove_duplicates st2).2.files = st2.files := by
    rw [remove_duplicates_files st2, hself, hfiles, List.map_map]
    exact List.map_congr_left fun f hf => rfl
  exact Prod.ext_iff.mpr ⟨h1, managerState_eq _ _ h3 h2⟩

theorem foldl_snoc_eq_append {α β : Type} (g : α → β) (l : List α) (acc : List β) :
    l.foldl (fun a x => a ++ [g x]) acc = acc ++ l.map g := by
  induction l generalizing acc with
  | nil => simp
  | cons x rest ih => simp [ih]

theorem flatMap_pages_length (files : List PDFFile) :
    (files.flatMap (fun f => (List.range (page_count f)).map (fun i => (f.path, i)))).length
      = (files.map page_count).sum := by
  induction files with
  | nil => simp
  | cons f rest ih => simp [ih]

theorem merge_pdfs_plan_loop (files : List PDFFile) (acc : List (String × Nat)) :
    files.foldl (fun acc f =>
        (List.range (page_count f)).foldl (fun a i => a ++ [(f.path, i)]) acc) acc
      = acc ++ files.flatMap (fun f => (List.range (page_count f)).map (fun i => (f.path, i))) := by
  induction files generalizing acc with
  | nil => simp
  | cons f rest ih =>
    simp only [List.foldl_cons, List.flatMap_cons]
    rw [foldl_snoc_eq_append, ih, List.append_assoc]

/-- C1: the merge loop of `_merge_pdfs` yields, for each file in collection
order, each of its pages 0..pageCount-1 in ascending order (the flatMap
form), and the plan's length is the sum of the page counts. -/
theorem merge_plan_correct (files : List PDFFile) :
    merge_pdfs_plan files
      = files.flatMap (fun f => (List.range (page_count f)).map (fun i => (f.path, i)))
    ∧ (merge_pdfs_plan files).length = (files.map page_count).sum := by
  have h := merge_pdfs_plan_loop files []
  simp only [List.nil_append] at h
  refine ⟨h, ?_⟩
  rw [show merge_pdfs_plan files = _ from h]
  exact flatMap_pages_length files

/-- C1 witness, the spec's scenario: a 3-page document A followed by a
2-page document B merge to exactly (A,0),(A,1),(A,2),(B,0),(B,1). -/
theorem merge_plan_correct_witness :
    merge_pdfs_plan [fileA, fileB]
      = [(pathA, 0), (pathA, 1), (pathA, 2), (pathB, 0), (pathB, 1)]
    ∧ (merge_pdfs_plan [fileA, fileB]).length = 5 := by
  have h := merge_plan_correct [fileA, fileB]
  exact ⟨h.1.trans (by decide), h.2.trans (by decide)⟩

theorem mem_intRange (a b x : Int) : x ∈ intRange a b ↔ a ≤ x ∧ x < b := by
  constructor
  · intro hx
    simp only [intRange, List.mem_map, List.mem_range] at hx
    obtain ⟨k, hk, hkx⟩ := hx
    omega
  · intro h
    simp only [intRange, List.mem_map, List.mem_range]
    exact ⟨(x - a).toNat, by omega, by omega⟩

theorem reader_get_page_valid (totalPages : Nat) (i : Int) (h0 : 0 ≤ i)
    (h1 : i < (totalPages : Int)) : reader_get_page totalPages i = some i := by
  have h2 : ¬ i < 0 := by omega
  simp [reader_get_page, h2, h0, h1]

theorem reader_get_page_oob (totalPages : Nat) (i : Int) (h0 : 0 ≤ i)
    (h1 : (totalPages : Int) ≤ i) : reader_get_page totalPages i = none := by
  have h2 : ¬ i < 0 := by omega
  have h3 : ¬ ((0 : Int) ≤ i ∧ i < (totalPages : Int)) := by omega
  simp [reader_get_page, h2, h3]

theorem export_pdf_flat (totalPages : Nat) (ranges : List (Int × Int)) :
    export_pdf totalPages ranges
      = (ranges.flatMap (fun r => intRange (r.1 - 1) r.2)).foldlM
          (fun acc i => (reader_get_page totalPages i).map (fun p => acc ++ [p])) [] := by
  suffices h : ∀ acc : List Int,
      ranges.foldlM (fun acc r =>
          (intRange (r.1 - 1) r.2).foldlM (fun acc2 i =>
              (reader_get_page totalPages i).map (fun p => acc2 ++ [p])) acc)
        acc
      = (ranges.flatMap (fun r => intRange (r.1 - 1) r.2)).foldlM
          (fun acc i => (reader_get_page totalPages i).map (fun p => acc ++ [p])) acc by
    exact h []
  induction ranges with
  | nil => intro acc; simp
  | cons r rest ih =>
    intro acc
    simp only [List.foldlM_cons, List.flatMap_cons, List.foldlM_append]
    cases hinner : (intRange (r.1 - 1) r.2).foldlM (fun acc2 i =>
        (reader_get_page totalPages i).map (fun p => acc2 ++ [p])) acc with
    | none => simp
    | some acc2 => simp [ih acc2]

theorem pages_foldlM_all_some (totalPages : Nat) (l : List Int)
    (hall : ∀ i ∈ l, reader_get_page totalPages i = some i) (acc : List Int) :
    l.foldlM (fun acc i => (reader_get_page totalPages i).map (fun p => acc ++ [p])) acc
      = some (acc ++ l) := by
  induction l generalizing acc with
  | nil => simp
  | cons i rest ih =>
    have hi : reader_get_page totalPages i = some i := hall i (List.mem_cons_self i rest)
    have ih2 := ih (fun j hj => hall j (List.mem_cons_of_mem i hj)) (acc ++ [i])
    simp [List.foldlM_cons, hi, ih2]

theorem pages_foldlM_has_none (totalPages : Nat) (l : List Int) (i : Int)
    (hi : i ∈ l) (hn : reader_get_page totalPages i = none) (acc : List Int) :
    l.foldlM (fun acc i => (reader_get_page totalPages i).map (fun p => acc ++ [p])) acc
      = none := by
  induction l generalizing acc with
  | nil => simp at hi
  | cons x rest ih =>
    cases hx : reader_get_page totalPages x with
    | none => simp [List.foldlM_cons, hx]
    | some p =>
      have hir : i ∈ rest := by
        rcases List.mem_cons.mp hi with rfl | h2
        · rw [hx] at hn; exact absurd hn (by simp)
        · exact h2
      simp [List.foldlM_cons, hx, ih hir (acc ++ [p])]

/-- C3: on a source with `totalPages` pages, when every range of the list
satisfies 1 ≤ start ≤ end ≤ totalPages, `export_pdf` succeeds and emits, for
each range strictly in list order, the 0-indexed source pages
start-1 .. end-1 in ascending order, concatenated (so overlapping ranges
duplicate their shared pages rather than failing). -/
theorem export_ranges_correct (totalPages : Nat) (ranges : List (Int × Int))
    (hvalid : ∀ r ∈ ranges, 1 ≤ r.1 ∧ r.1 ≤ r.2 ∧ r.2 ≤ (totalPages : Int)) :
    export_pdf totalPages ranges
      = some (ranges.flatMap (fun r => intRange (r.1 - 1) r.2)) := by
  rw [export_pdf_flat]
  have hall : ∀ i ∈ ranges.flatMap (fun r => intRange (r.1 - 1) r.2),
      reader_get_page totalPages i = some i := by
    intro i hi
    obtain ⟨r, hr, hir⟩ := List.mem_flatMap.mp hi
    obtain ⟨h1, h2, h3⟩ := hvalid r hr
    obtain ⟨ha, hb⟩ := (mem_intRange _ _ _).mp hir
    exact reader_get_page_valid _ _ (by omega) (by omega)
  simpa using pages_foldlM_all_some totalPages _ hall []

/-- C3 witness, the spec's scenario: a 10-page source with ranges
[(1,3),(5,5)] yields exactly the 4 entries for 0-indexed pages 0,1,2,4. -/
theorem export_ranges_correct_witness :
    (∀ r ∈ [((1 : Int), (3 : Int)), (5, 5)], 1 ≤ r.1 ∧ r.1 ≤ r.2 ∧ r.2 ≤ ((10 : Nat) : Int))
    ∧ export_pdf 10 [(1, 3), (5, 5)] = some [0, 1, 2, 4] := by
  refine ⟨by decide, ?_⟩
  have h := export_ranges_correct 10 [(1, 3), (5, 5)] (by decide)
  exact h.trans (by decide)

/-- C4: if every range of the list satisfies the creation-time invariant
1 ≤ start ≤ end (which `add_range` enforces) and some range violates
1 ≤ start ≤ end ≤ totalPages at export time (its end exceeds `totalPages`,
e.g. because the range list belongs to a larger source), the whole export
fails and no partial plan is returned — the generic exception handler runs
before the output file is ever opened, so not even the pages of the valid
ranges preceding the bad one are emitted. -/
theorem export_ranges_invalid (totalPages : Nat) (ranges : List (Int × Int))
    (hinv : ∀ r ∈ ranges, 1 ≤ r.1 ∧ r.1 ≤ r.2)
    (hbad : ∃ r ∈ ranges, ¬(1 ≤ r.1 ∧ r.1 ≤ r.2 ∧ r.2 ≤ (totalPages : Int))) :
    export_pdf totalPages ranges = none := by
  rw [export_pdf_flat]
  obtain ⟨r, hr, hviol⟩ := hbad
  obtain ⟨h1, h2⟩ := hinv r hr
  have h3 : (totalPages : Int) < r.2 := by
    by_contra hc
    exact hviol ⟨h1, h2, by omega⟩
  refine pages_foldlM_has_none totalPages _ (r.2 - 1) ?_ ?_ []
  · exact List.mem_flatMap.mpr ⟨r, hr, (mem_intRange _ _ _).mpr ⟨by omega, by omega⟩⟩
  · exact reader_get_page_oob _ _ (by omega) (by omega)

/-- C4 witness: a 2-page source with ranges [(1,2),(1,5)] — the first range
is valid, the second exceeds the page count — exports nothing at all. -/
theorem export_ranges_invalid_witness :
    (∀ r ∈ [((1 : Int), (2 : Int)), (1, 5)], 1 ≤ r.1 ∧ r.1 ≤ r.2)
    ∧ (∃ r ∈ [((1 : Int), (2 : Int)), (1, 5)],
        ¬(1 ≤ r.1 ∧ r.1 ≤ r.2 ∧ r.2 ≤ ((2 : Nat) : Int)))
    ∧ export_pdf 2 [(1, 2), (1, 5)] = none :=
  ⟨by decide, by decide, export_ranges_invalid 2 [(1, 2), (1, 5)] (by decide) (by decide)⟩

/-- C9: `add_range` fails (error dialog, list untouched) exactly when
1 ≤ start ≤ end ≤ totalPages fails, and otherwise appends {start, end} at
the end of the list — the new entry sits at position `ranges.length`, the
index the corresponding listbox row gets. -/
theorem add_range_correct (ranges : List (Int × Int)) (start endP totalPages : Int) :
    (¬(1 ≤ start ∧ start ≤ endP ∧ endP ≤ totalPages) →
        add_range ranges start endP totalPages = (false, ranges))
    ∧ ((1 ≤ start ∧ start ≤ endP ∧ endP ≤ totalPages) →
        add_range ranges start endP totalPages = (true, ranges ++ [(start, endP)])
        ∧ (ranges ++ [(start, endP)]).length = ranges.length + 1
        ∧ (ranges ++ [(start, endP)])[ranges.length]? = some (start, endP)) := by
  constructor
  · intro h
    have hc : start < 1 ∨ endP > totalPages ∨ start > endP := by
      by_contra hc
      push_neg at hc
      exact h ⟨by omega, by omega, by omega⟩
    rw [add_range, if_pos hc]
  · intro h
    refine ⟨?_, by simp, List.getElem?_concat_length ranges (start, endP)⟩
    rw [add_range, if_neg (by omega)]

/-- C9 witness: with a 10-page total, (0,3), (4,11) and (5,3) are rejected
without mutation and (1,10) is appended at position 0 of the empty list. -/
theorem add_range_correct_witness :
    add_range [] 0 3 10 = (false, [])
    ∧ add_range [] 4 11 10 = (false, [])
    ∧ add_range [] 5 3 10 = (false, [])
    ∧ add_range [] 1 10 10 = (true, [(1, 10)])
    ∧ ([] ++ [((1 : Int), (10 : Int))])[(0 : Nat)]? = some (1, 10) := by
  have h1 := (add_range_correct [] 0 3 10).1 (by decide)
  have h2 := (add_range_correct [] 4 11 10).1 (by decide)
  have h3 := (add_range_correct [] 5 3 10).1 (by decide)
  have h4 := (add_range_correct [] 1 10 10).2 (by decide)
  exact ⟨h1, h2, h3, h4.1, h4.2.2⟩

/-- C10: `remove_file` at a valid 0-based position returns True and removes
exactly that file — the remaining files keep their path, document handle,
page count and hash, in their original relative order, only their statuses
being recomputed — and at any out-of-range position (negative or too large)
it returns False and leaves the state, its hash index and all statuses
untouched. -/
theorem dropStatus_update (counts : List (String × Nat)) (files : List PDFFile) :
    (update_duplicate_statuses { files := files, hash_counts := counts }).files.map dropStatus
      = files.map dropStatus := by
  simp only [update_duplicate_statuses, List.map_map]
  apply List.map_congr_left
  intro g hg
  by_cases hc : dictGet counts g.hash 0 > 1 <;> simp [Function.comp, hc, dropStatus]

theorem remove_file_frame (st : ManagerState) (index : Int) :
    (0 ≤ index ∧ index < (st.files.length : Int) →
        (remove_file st index).1 = true
        ∧ (remove_file st index).2.files.map dropStatus
            = (st.files.eraseIdx index.toNat).map dropStatus
        ∧ (remove_file st index).2.files.length = st.files.length - 1)
    ∧ (¬(0 ≤ index ∧ index < (st.files.length : Int)) →
        remove_file st index = (false, st)) := by
  constructor
  · intro h
    have hlt : index.toNat < st.files.length := by omega
    have hget : st.files[index.toNat]? = some (st.files[index.toNat]) :=
      List.getElem?_eq_getElem hlt
    simp only [remove_file, if_pos h, hget]
    refine ⟨trivial, ?_, ?_⟩
    · exact dropStatus_update _ _
    · simp only [update_duplicate_statuses, List.length_map]
      exact List.length_eraseIdx_of_lt hlt
  · intro h
    rw [remove_file, if_neg h]

/-- C10 witness: removing position 0 of a two-file collection keeps exactly
the other file unchanged apart from status recomputation; positions -1 and 2
are rejected without mutation. -/
theorem remove_file_frame_witness :
    ((0 : Int) ≤ 0 ∧ (0 : Int) < (stAB.files.length : Int))
    ∧ (remove_file stAB 0).1 = true
    ∧ (remove_file stAB 0).2.files.map dropStatus
        = (stAB.files.eraseIdx 0).map dropStatus
    ∧ remove_file stAB (-1) = (false, stAB)
    ∧ remove_file stAB 2 = (false, stAB) := by
  have h := (remove_file_frame stAB 0).1 (by decide)
  exact ⟨by decide, h.1, h.2.1,
    (remove_file_frame stAB (-1)).2 (by decide),
    (remove_file_frame stAB 2).2 (by decide)⟩

theorem file_exists_of_mem_hash (st : ManagerState) (h : String)
    (hcons : countsConsistent st) (hmem : ∃ f ∈ st.files, f.hash = h) :
    file_exists st h = true := by
  obtain ⟨f, hf, rfl⟩ := hmem
  have h1 := hcons.1 f hf
  have h2 : 0 < (st.files.map PDFFile.hash).count f.hash :=
    List.count_pos_iff.mpr (List.mem_map_of_mem _ hf)
  exact dictMem_of_dictGet_ne_zero _ _ (by omega)

/-- C6: on a collection whose hash index is consistent with its sequence,
adding a path whose content fingerprint equals the hash of a document
already present returns the duplicate conflict (False plus the "already
exists" message) and returns the state completely unmutated — same
sequence, same hash index, same statuses — whatever the codec would have
answered for the open. -/
theorem add_file_duplicate_conflict (st : ManagerState) (path file_hash : String)
    (openResult : Option (Nat × Nat)) (hcons : countsConsistent st)
    (hdup : ∃ f ∈ st.files, f.hash = file_hash) :
    add_file st path file_hash openResult
      = ((false, "File already exists: " ++ basename path), st) := by
  simp [add_file, file_exists_of_mem_hash st file_hash hcons hdup]

/-- C6 witness, the spec's scenario: after one successful add, adding the
same file again returns the conflict and the collection still holds exactly
one document. -/
theorem add_file_duplicate_conflict_witness :
    countsConsistent st1
    ∧ (∃ f ∈ st1.files, f.hash = hashA)
    ∧ add_file st1 pathA hashA (some (4, 3))
        = ((false, "File already exists: " ++ basename pathA), st1)
    ∧ st1.files.length = 1 :=
  ⟨by decide, by decide,
    add_file_duplicate_conflict st1 pathA hashA (some (4, 3)) (by decide) (by decide),
    by decide⟩

/-- C2 (evaluation of the defect): `reorder_files` called with
["a.pdf", "a.pdf"] on the collection [a.pdf, b.pdf] — not a permutation of
its filenames — nevertheless returns True and replaces the sequence with
the first file twice, dropping b.pdf, because the implementation matches
display names and only compares lengths instead of checking a permutation
of stable identifiers. -/
theorem reorder_nonperm_mutates :
    (reorder_files stAB ["a.pdf", "a.pdf"]).1 = true
    ∧ (reorder_files stAB ["a.pdf", "a.pdf"]).2.files = [fileA, fileA]
    ∧ stAB.files = [fileA, fileB] := by decide

/-- C5 (evaluation of the defect): the same degenerate `reorder_files` call
starts from a state satisfying both collection invariants and ends in one
satisfying neither — the hash index still counts each hash once while the
sequence now holds the same hash twice, and both copies keep status NORMAL
although their hash count exceeds 1 — because `reorder_files` never updates
the index or the statuses. -/
theorem reorder_breaks_invariant :
    countsConsistent stAB ∧ statusInvariant stAB
    ∧ (reorder_files stAB ["a.pdf", "a.pdf"]).1 = true
    ∧ ¬ countsConsistent (reorder_files stAB ["a.pdf", "a.pdf"]).2
    ∧ ¬ statusInvariant (reorder_files stAB ["a.pdf", "a.pdf"]).2 := by decide

/-- C7 witness, the spec's scenario: after force-adding the same file twice
both documents are DUPLICATE; `remove_duplicates` removes exactly one,
leaves one NORMAL document, and returns 1. -/
theorem remove_duplicates_correct_witness :
    (∀ f ∈ stDup.files, f.status = FileStatus.DUPLICATE)
    ∧ (remove_duplicates stDup).1 = 1
    ∧ (remove_duplicates stDup).2.files.length = 1
    ∧ (∀ f ∈ (remove_duplicates stDup).2.files, f.status = FileStatus.NORMAL) := by
  have h := (remove_duplicates_correct stDup).1
  refine ⟨by decide, ?_, by decide, by decide⟩
  have h2 : (keepFirstFrom [] stDup.files).length = 1 := by decide
  have h3 : stDup.files.length = 2 := by decide
  omega

/-- C8 witness: a second `remove_duplicates` on the deduplicated two-copy
collection returns 0 and the very same state. -/
theorem remove_duplicates_idempotent_witness :
    remove_duplicates (remove_duplicates stDup).2 = (0, (remove_duplicates stDup).2) :=
  remove_duplicates_idempotent stDup
